import Mathlib

/-!
Verification development for the `love.math` / `love.keyboard` API surface.

The repository under verification consists of TypeScript declaration files:
they fix the shapes of the API (names, arities, overloads) while the
behaviour of each function is described by the accompanying specification.
Accordingly, the declaration-level facts (overload sets, arities) are
embedded directly from the `.d.ts` source, while behavioural definitions are
modelled from the specification text, each marked `Modelled from the spec:`.
-/

namespace LoveSpec

/-! ## Definitions -/

/-- The modulus of the 64-bit generator state (spec §3: "a 64-bit value"). -/
def M64 : ℕ := 2 ^ 64

/-- Modelled from the spec: the engine behind `love.math.random` /
`RandomGenerator` is absent from the repository (only declared); the spec
requires a deterministic pseudo-random source with explicit 64-bit state.
We model one step of the generator as a xorshift-style mixing of the 64-bit
state; the next state also serves as the drawn raw value. -/
def rngStep (s : ℕ) : ℕ :=
  let a := (s ^^^ (s <<< 13)) % M64
  let b := a ^^^ (a >>> 7)
  (b ^^^ (b <<< 17)) % M64

/-- The generator state reached after `k` draws from state `s`. -/
def stateAfterDraws (s : ℕ) : ℕ → ℕ
  | 0 => s
  | k + 1 => stateAfterDraws (rngStep s) k

/-- The list of the next `n` raw draw values from state `s`. -/
def rngDraws (s : ℕ) : ℕ → List ℕ
  | 0 => []
  | n + 1 => rngStep s :: rngDraws (rngStep s) n

/-- Modelled from the spec: `getRandomState` returns an opaque serialization
of the full 64-bit state; per spec §3 the state is "exposed/settable as two
unsigned 32-bit halves (low, high)", so the opaque token is modelled as that
pair. -/
def getRandomState (s : ℕ) : ℕ × ℕ := (s % 2 ^ 32, s / 2 ^ 32)

/-- Modelled from the spec: `setRandomState` restores a state captured by
`getRandomState`, reassembling the 64-bit state from its two 32-bit halves. -/
def setRandomState (p : ℕ × ℕ) : ℕ := p.1 + 2 ^ 32 * p.2

/-- Modelled from the spec: `setRandomSeed` / `newRandomGenerator(seed)`
"resets derived state deterministically from the seed" (spec §3).  The seed
is reduced to the 64-bit state space and the generator is warmed up by a few
fixed steps; the derivation depends on nothing but the seed. -/
def setRandomSeed (seed : ℕ) : ℕ :=
  rngStep (rngStep (rngStep (seed % M64)))

/-- Modelled from the spec: reseeding an existing generator `g` with `seed`
discards the previous state entirely. -/
def reseed (g seed : ℕ) : ℕ := setRandomSeed seed

/-- Error taxonomy of the spec (§7); only `InvalidArgument` is needed for
the claims about `random` and `triangulate`, plus `DegeneratePolygon` for
the triangulation fallback. -/
inductive LoveErr : Type
  | invalidArgument : LoveErr
  | degeneratePolygon : LoveErr
deriving DecidableEq, Repr

/-- Modelled from the spec: `random()` draws a raw 64-bit value and scales
it into `[0,1)`.  Returns the value together with the advanced state. -/
def rngUniform (s : ℕ) : ℚ × ℕ :=
  ((rngStep s : ℚ) / (M64 : ℚ), rngStep s)

/-- Modelled from the spec: `random(min, max)` returns a uniform integer in
`[min, max]`, failing with `InvalidArgument` when `min > max` and leaving
the state unchanged on failure. -/
def randomInt2 (s : ℕ) (lo hi : ℤ) : Except LoveErr ℤ × ℕ :=
  if hi < lo then (Except.error LoveErr.invalidArgument, s)
  else (Except.ok (lo + (rngStep s : ℤ) % (hi - lo + 1)), rngStep s)

/-- Modelled from the spec: `random(max)` is `random(1, max)`, so it fails
with `InvalidArgument` exactly when `max < 1`. -/
def randomInt1 (s : ℕ) (hi : ℤ) : Except LoveErr ℤ × ℕ := randomInt2 s 1 hi

/-- Modelled from the spec: `colorToBytes` "multiplies each of 3–4 channels
by 255 and rounds to nearest integer"; channels are processed
independently, so the model maps one channel. -/
def toByte (c : ℚ) : ℤ := round (255 * c)

/-- Modelled from the spec: `colorToBytes` applied to the list of 3 or 4
channel arguments; arity is preserved because every channel is converted in
place. -/
def colorToBytes (rgba : List ℚ) : List ℤ := rgba.map toByte

/-- Modelled from the spec: `love.keyboard.isDown(...keys)` returns "true
if any supplied key is down, false if not"; the engine's key state is
abstracted as a predicate on key constants. -/
def isDown (pressed : String → Bool) (keys : List String) : Bool :=
  keys.any pressed

/-- The modulus of the 32-bit hash space used by the noise lattice. -/
def M32 : ℕ := 2 ^ 32

/-- Modelled from the spec: the noise engine is absent from the repository
(only declared); the spec requires a deterministic function with values in
`[0,1]` and leaves the concrete algorithm open ("exact noise values are not
part of the portable contract — only determinism and range are").  We model
the per-lattice-point pseudo-random values by an integer mixing hash into
the 32-bit range. -/
def mix (k : ℕ) : ℕ :=
  let a := (k * 2654435761 + 2463534242) % M32
  a ^^^ (a >>> 16)

/-- Hash of a 1-dimensional lattice coordinate. -/
def latticeHash (n : ℤ) : ℕ := mix (n % (M32 : ℤ)).toNat

/-- Pseudo-random lattice value in `[0,1)`. -/
def grid (n : ℤ) : ℚ := (latticeHash n : ℚ) / (M32 : ℚ)

/-- Lattice value for a 2-dimensional lattice point. -/
def grid2 (i j : ℤ) : ℚ := grid (i + 7919 * j)

/-- Lattice value for a 3-dimensional lattice point. -/
def grid3 (i j k : ℤ) : ℚ := grid (i + 7919 * j + 104729 * k)

/-- Lattice value for a 4-dimensional lattice point. -/
def grid4 (i j k l : ℤ) : ℚ := grid (i + 7919 * j + 104729 * k + 1299709 * l)

/-- Linear interpolation between `a` and `b` with parameter `t`. -/
def lerp (t a b : ℚ) : ℚ := a + t * (b - a)

/-- Modelled from the spec: 1-dimensional `noise(x)` — value noise with
linear interpolation between the two neighbouring lattice values. -/
def noise1 (x : ℚ) : ℚ :=
  lerp (Int.fract x) (grid ⌊x⌋) (grid (⌊x⌋ + 1))

/-- Modelled from the spec: 2-dimensional `noise(x, y)` — bilinear value
noise over the four neighbouring lattice values. -/
def noise2 (x y : ℚ) : ℚ :=
  lerp (Int.fract y)
    (lerp (Int.fract x) (grid2 ⌊x⌋ ⌊y⌋) (grid2 (⌊x⌋ + 1) ⌊y⌋))
    (lerp (Int.fract x) (grid2 ⌊x⌋ (⌊y⌋ + 1)) (grid2 (⌊x⌋ + 1) (⌊y⌋ + 1)))

/-- Modelled from the spec: 3-dimensional `noise(x, y, z)` — trilinear
value noise over the eight neighbouring lattice values. -/
def noise3 (x y z : ℚ) : ℚ :=
  lerp (Int.fract z)
    (lerp (Int.fract y)
      (lerp (Int.fract x) (grid3 ⌊x⌋ ⌊y⌋ ⌊z⌋) (grid3 (⌊x⌋ + 1) ⌊y⌋ ⌊z⌋))
      (lerp (Int.fract x) (grid3 ⌊x⌋ (⌊y⌋ + 1) ⌊z⌋)
        (grid3 (⌊x⌋ + 1) (⌊y⌋ + 1) ⌊z⌋)))
    (lerp (Int.fract y)
      (lerp (Int.fract x) (grid3 ⌊x⌋ ⌊y⌋ (⌊z⌋ + 1))
        (grid3 (⌊x⌋ + 1) ⌊y⌋ (⌊z⌋ + 1)))
      (lerp (Int.fract x) (grid3 ⌊x⌋ (⌊y⌋ + 1) (⌊z⌋ + 1))
        (grid3 (⌊x⌋ + 1) (⌊y⌋ + 1) (⌊z⌋ + 1))))

/-- The trilinear slice of the 4-dimensional value noise at the lattice
layer `l` of the fourth axis. -/
def noise4Slice (x y z : ℚ) (l : ℤ) : ℚ :=
  lerp (Int.fract z)
    (lerp (Int.fract y)
      (lerp (Int.fract x) (grid4 ⌊x⌋ ⌊y⌋ ⌊z⌋ l) (grid4 (⌊x⌋ + 1) ⌊y⌋ ⌊z⌋ l))
      (lerp (Int.fract x) (grid4 ⌊x⌋ (⌊y⌋ + 1) ⌊z⌋ l)
        (grid4 (⌊x⌋ + 1) (⌊y⌋ + 1) ⌊z⌋ l)))
    (lerp (Int.fract y)
      (lerp (Int.fract x) (grid4 ⌊x⌋ ⌊y⌋ (⌊z⌋ + 1) l)
        (grid4 (⌊x⌋ + 1) ⌊y⌋ (⌊z⌋ + 1) l))
      (lerp (Int.fract x) (grid4 ⌊x⌋ (⌊y⌋ + 1) (⌊z⌋ + 1) l)
        (grid4 (⌊x⌋ + 1) (⌊y⌋ + 1) (⌊z⌋ + 1) l)))

/-- Modelled from the spec: 4-dimensional `noise(x, y, z, w)` —
quadrilinear value noise over the sixteen neighbouring lattice values. -/
def noise4 (x y z w : ℚ) : ℚ :=
  lerp (Int.fract w) (noise4Slice x y z ⌊w⌋) (noise4Slice x y z (⌊w⌋ + 1))

/-- A 2-dimensional point with exact rational coordinates. -/
abbrev Pt : Type := ℚ × ℚ

/-- Pair up a flat coordinate sequence `[x1, y1, x2, y2, ...]` into points;
a trailing odd coordinate is ignored. -/
def toPoints : List ℚ → List Pt
  | x :: y :: rest => (x, y) :: toPoints rest
  | _ => []

/-- The 2-dimensional cross product of `a - o` and `b - o`. -/
def crossP (o a b : Pt) : ℚ :=
  (a.1 - o.1) * (b.2 - o.2) - (a.2 - o.2) * (b.1 - o.1)

/-- All cyclic triples of consecutive vertices of a polygon. -/
def cyclicTriples (P : List Pt) : List (Pt × Pt × Pt) :=
  P.zip ((P.rotate 1).zip (P.rotate 2))

/-- The cross products across all consecutive edge triples. -/
def crossList (P : List Pt) : List ℚ :=
  (cyclicTriples P).map fun t => crossP t.1 t.2.1 t.2.2

/-- Modelled from the spec: `isConvex` "tests cross-product sign
consistency across consecutive edge triples of a simple polygon given as a
flat coordinate sequence; returns false if any sign flips ... or if fewer
than 3 vertices".  Exact rational arithmetic makes the collinear epsilon
tolerance exact (`ε = 0`): collinear triples produce cross product `0`,
which is compatible with either sign. -/
def isConvexPts (P : List Pt) : Bool :=
  decide (3 ≤ P.length) &&
    ((crossList P).all (fun c => decide (0 ≤ c)) ||
      (crossList P).all (fun c => decide (c ≤ 0)))

/-- The convexity test on the flat coordinate sequence. -/
def isConvex (coords : List ℚ) : Bool := isConvexPts (toPoints coords)

/-- The overload set of `newTransform` in the declaration file: a
zero-argument overload, and an overload with required `x, y` followed by
seven optional numbers (`angle?, sx?, sy?, ox?, oy?, kx?, ky?`), so any
argument count from 2 to 9 is accepted. -/
def newTransformArityOK (n : ℕ) : Bool :=
  n == 0 || (decide (2 ≤ n) && decide (n ≤ 9))

/-- The components of a 2-dimensional affine transform builder. -/
structure Transform where
  x : ℚ
  y : ℚ
  angle : ℚ
  sx : ℚ
  sy : ℚ
  ox : ℚ
  oy : ℚ
  kx : ℚ
  ky : ℚ
deriving DecidableEq, Repr

/-- Modelled from the spec: the transform produced by the zero-argument
`newTransform()` — translation `(0,0)`, "rotation (angle in radians), scale
(sx, sy, default 1,1), origin offset (ox, oy, default 0,0), and shear
(kx, ky, default 0,0)". -/
def defaultTransform : Transform :=
  { x := 0, y := 0, angle := 0, sx := 1, sy := 1
    ox := 0, oy := 0, kx := 0, ky := 0 }

/-- A triangle as an ordered triple of vertices. -/
abbrev Tri : Type := Pt × Pt × Pt

/-- Consecutive-vertex pairs of a path (no wraparound). -/
def pathPairs : List Pt → List (Pt × Pt)
  | x :: y :: tl => (x, y) :: pathPairs (y :: tl)
  | _ => []

/-- Consecutive-vertex pairs of the cycle starting at `first`, closing the
last vertex back to `first`. -/
def cycAux (first : Pt) : List Pt → List (Pt × Pt)
  | [] => []
  | [x] => [(x, first)]
  | x :: y :: tl => (x, y) :: cycAux first (y :: tl)

/-- The directed boundary edges of a polygon, in order, wrapping around. -/
def cyc : List Pt → List (Pt × Pt)
  | [] => []
  | x :: tl => cycAux x (x :: tl)

/-- Sum of an edge-valued function over the directed boundary of a
polygon.  Instantiated with `chainF` it yields the boundary 1-chain, with
`edgeDet` the shoelace (doubled signed area). -/
def cycSum {M : Type} [AddCommMonoid M] (f : Pt × Pt → M) (P : List Pt) : M :=
  ((cyc P).map f).sum

/-- The elementary 1-chain of a directed edge: `+1` on `(a,b)`, `-1` on
the reversed edge `(b,a)`. -/
def eChain (a b : Pt) : Pt × Pt → ℤ := fun e =>
  (if e = (a, b) then 1 else 0) - (if e = (b, a) then 1 else 0)

/-- The edge-to-chain map. -/
def chainF : Pt × Pt → Pt × Pt → ℤ := fun e => eChain e.1 e.2

/-- The boundary 1-chain of a polygon: each directed boundary edge counted
`+1`, its reverse `-1`. -/
def bChain (P : List Pt) : Pt × Pt → ℤ := cycSum chainF P

/-- The shoelace contribution of one directed edge. -/
def edgeDet (e : Pt × Pt) : ℚ := e.1.1 * e.2.2 - e.2.1 * e.1.2

/-- The doubled signed area of a polygon (shoelace formula). -/
def area2 (P : List Pt) : ℚ := cycSum edgeDet P

/-- The signed area of a polygon. -/
def polyArea (P : List Pt) : ℚ := area2 P / 2

/-- The vertex list of a triangle. -/
def triPts (t : Tri) : List Pt := [t.1, t.2.1, t.2.2]

/-- Sum of an edge-valued function over the boundary of a triangle. -/
def triCycSum {M : Type} [AddCommMonoid M] (f : Pt × Pt → M) (t : Tri) : M :=
  cycSum f (triPts t)

/-- The signed area of a triangle, via the shoelace formula. -/
def triArea (t : Tri) : ℚ := cycSum edgeDet (triPts t) / 2

/-- Whether `p` lies in the closed triangle `a b c` (`a b c` counter-
clockwise): `p` is on the left of, or on, each directed edge. -/
def ptInTri (a b c p : Pt) : Bool :=
  decide (0 ≤ crossP a b p) && decide (0 ≤ crossP b c p) &&
    decide (0 ≤ crossP c a p)

/-- Modelled from the spec: the ear test — the front vertex triple forms a
strictly convex corner and its triangle "contains no other polygon
vertex". -/
def earAt (P : List Pt) : Bool :=
  match P with
  | a :: b :: c :: rest =>
      decide (0 < crossP a b c) && rest.all fun p => !(ptInTri a b c p)
  | _ => false

/-- Modelled from the spec: search for an ear by rotating the vertex list;
`fuel` bounds the rotations (one full pass).  On success returns the ear
triangle and the polygon with the ear's middle vertex removed. -/
def findEar : ℕ → List Pt → Option (Tri × List Pt)
  | 0, _ => none
  | fuel + 1, P =>
      match P with
      | a :: b :: c :: rest =>
          if earAt P then some ((a, b, c), a :: c :: rest)
          else findEar fuel (P.rotate 1)
      | _ => none

/-- Modelled from the spec: the ear-clipping loop — "repeatedly find a
convex vertex (ear) whose triangle contains no other polygon vertex, emit
it, remove it, repeat until 3 vertices remain, emit the final triangle",
failing with `DegeneratePolygon` "if no ear can be found after a full pass
with vertices remaining"; a degenerate final triangle also fails. -/
def clipRun : ℕ → List Pt → Except LoveErr (List Tri)
  | 0, _ => Except.error LoveErr.degeneratePolygon
  | fuel + 1, P =>
      match P with
      | [a, b, c] =>
          if 0 < crossP a b c then Except.ok [(a, b, c)]
          else Except.error LoveErr.degeneratePolygon
      | _ :: _ :: _ :: _ :: _ =>
          match findEar P.length P with
          | none => Except.error LoveErr.degeneratePolygon
          | some (t, Q) => (clipRun fuel Q).map fun ts => t :: ts
      | _ => Except.error LoveErr.invalidArgument

/-- Whether the collinear point `p` lies within the bounding box of the
segment `s`. -/
def onSeg (s : Pt × Pt) (p : Pt) : Bool :=
  decide (min s.1.1 s.2.1 ≤ p.1) && decide (p.1 ≤ max s.1.1 s.2.1) &&
    decide (min s.1.2 s.2.2 ≤ p.2) && decide (p.2 ≤ max s.1.2 s.2.2)

/-- Whether two closed segments intersect (proper crossing, or an endpoint
lying on the other segment). -/
def segsIntersect (s₁ s₂ : Pt × Pt) : Bool :=
  let d1 := crossP s₂.1 s₂.2 s₁.1
  let d2 := crossP s₂.1 s₂.2 s₁.2
  let d3 := crossP s₁.1 s₁.2 s₂.1
  let d4 := crossP s₁.1 s₁.2 s₂.2
  (((decide (0 < d1) && decide (d2 < 0)) ||
      (decide (d1 < 0) && decide (0 < d2))) &&
    ((decide (0 < d3) && decide (d4 < 0)) ||
      (decide (d3 < 0) && decide (0 < d4)))) ||
  (decide (d1 = 0) && onSeg s₂ s₁.1) || (decide (d2 = 0) && onSeg s₂ s₁.2) ||
  (decide (d3 = 0) && onSeg s₁ s₂.1) || (decide (d4 = 0) && onSeg s₁ s₂.2)

/-- Modelled from the spec: a polygon self-intersects when two
non-adjacent boundary edges meet (adjacent edges legitimately share an
endpoint). -/
def selfIntersects (P : List Pt) : Bool :=
  let es := cyc P
  let n := es.length
  (List.range n).any fun i =>
    (List.range n).any fun j =>
      decide (i + 2 ≤ j) && !(decide (i = 0) && decide (j = n - 1)) &&
        segsIntersect (es.getD i ((0, 0), (0, 0))) (es.getD j ((0, 0), (0, 0)))

/-- Normalize the polygon to counter-clockwise orientation. -/
def orient (P : List Pt) : List Pt :=
  if area2 P < 0 then P.reverse else P

/-- Modelled from the spec: `triangulate` — fail with `InvalidArgument` on
fewer than 3 vertices or on a self-intersecting input, otherwise run
ear clipping on the orientation-normalized polygon. -/
def triangulate (coords : List ℚ) : Except LoveErr (List Tri) :=
  let P := toPoints coords
  if P.length < 3 then Except.error LoveErr.invalidArgument
  else if selfIntersects P then Except.error LoveErr.invalidArgument
  else clipRun P.length (orient P)

/-- Modelled from the spec: `gammaToLinear` on one channel — "the standard
sRGB piecewise transfer function (linear segment below threshold
0.0031308 / 0.04045, power-law above with exponent 2.4 and coefficient
1.055)". -/
noncomputable def gammaToLinear (c : ℝ) : ℝ :=
  if c ≤ 0.04045 then c / 12.92 else ((c + 0.055) / 1.055) ^ (2.4 : ℝ)

/-- Modelled from the spec: `linearToGamma` on one channel — the inverse
branch of the standard sRGB transfer function. -/
noncomputable def linearToGamma (lc : ℝ) : ℝ :=
  if lc ≤ 0.0031308 then 12.92 * lc
  else 1.055 * lc ^ ((1 : ℝ) / 2.4) - 0.055

/-- The 3-channel form of `gammaToLinear`: each channel is converted
independently, preserving the shape. -/
noncomputable def gammaToLinear3 (c : ℝ × ℝ × ℝ) : ℝ × ℝ × ℝ :=
  (gammaToLinear c.1, gammaToLinear c.2.1, gammaToLinear c.2.2)

/-- The 3-channel form of `linearToGamma`. -/
noncomputable def linearToGamma3 (c : ℝ × ℝ × ℝ) : ℝ × ℝ × ℝ :=
  (linearToGamma c.1, linearToGamma c.2.1, linearToGamma c.2.2)

/-! ## Theorems -/

/-- Reassembling the two 32-bit halves recovers the 64-bit state. -/
theorem setRandomState_getRandomState (s : ℕ) :
    setRandomState (getRandomState s) = s := by
  unfold setRandomState getRandomState
  exact Nat.mod_add_div s (2 ^ 32)

/-- Claim C1: for every state captured with `getRandomState` after any
number `k` of draws, restoring it with `setRandomState` and drawing `n`
further values reproduces exactly the `n` values drawn after the capture;
in particular `setRandomState (getRandomState _)` leaves the subsequent
output sequence unchanged. -/
theorem rng_state_roundtrip (s k n : ℕ) :
    rngDraws (setRandomState (getRandomState (stateAfterDraws s k))) n =
      rngDraws (stateAfterDraws s k) n := by
  rw [setRandomState_getRandomState]

/-- Claim C2: two generators seeded with the same seed produce identical
subsequent output sequences, regardless of their previous states; seeding a
fresh generator and reseeding an existing one give the same sequence. -/
theorem rng_seed_deterministic (g₁ g₂ seed n : ℕ) :
    rngDraws (reseed g₁ seed) n = rngDraws (reseed g₂ seed) n ∧
      rngDraws (reseed g₁ seed) n = rngDraws (setRandomSeed seed) n :=
  ⟨rfl, rfl⟩

/-- Each generator step stays inside the 64-bit state space. -/
theorem rngStep_lt (s : ℕ) : rngStep s < M64 := by
  unfold rngStep
  exact Nat.mod_lt _ (by unfold M64; positivity)

/-- Claim C3: `random()` yields a value in `[0,1)`; `random(min,max)`
yields an integer in `[min,max]` and fails with `InvalidArgument` exactly
when `min > max`, leaving the state unchanged on failure; `random(max)`
fails exactly when `max < 1` and otherwise yields an integer in `[1,max]`. -/
theorem random_contract (s : ℕ) (lo hi : ℤ) :
    (0 ≤ (rngUniform s).1 ∧ (rngUniform s).1 < 1) ∧
    (hi < lo → randomInt2 s lo hi = (Except.error LoveErr.invalidArgument, s)) ∧
    (lo ≤ hi → ∃ v, randomInt2 s lo hi = (Except.ok v, rngStep s) ∧
      lo ≤ v ∧ v ≤ hi) ∧
    (hi < 1 → randomInt1 s hi = (Except.error LoveErr.invalidArgument, s)) ∧
    (1 ≤ hi → ∃ v, randomInt1 s hi = (Except.ok v, rngStep s) ∧
      1 ≤ v ∧ v ≤ hi) := by
  have hlt : (rngStep s : ℚ) < (M64 : ℚ) := by
    exact_mod_cast rngStep_lt s
  have hM : (0 : ℚ) < (M64 : ℚ) := by
    have : (0 : ℕ) < M64 := by unfold M64; positivity
    exact_mod_cast this
  have hrange : ∀ l h : ℤ, l ≤ h →
      ∃ v, randomInt2 s l h = (Except.ok v, rngStep s) ∧ l ≤ v ∧ v ≤ h := by
    intro l h hle
    refine ⟨l + (rngStep s : ℤ) % (h - l + 1), ?_, ?_, ?_⟩
    · unfold randomInt2
      rw [if_neg (not_lt.mpr hle)]
    · have hpos : (0 : ℤ) < h - l + 1 := by omega
      have := Int.emod_nonneg (rngStep s : ℤ) (by omega : h - l + 1 ≠ 0)
      omega
    · have hpos : (0 : ℤ) < h - l + 1 := by omega
      have := Int.emod_lt_of_pos (rngStep s : ℤ) hpos
      omega
  refine ⟨⟨?_, ?_⟩, ?_, hrange lo hi, ?_, hrange 1 hi⟩
  · exact div_nonneg (by positivity) (le_of_lt hM)
  · exact (div_lt_one hM).mpr hlt
  · intro h
    unfold randomInt2
    rw [if_pos h]
  · intro h
    unfold randomInt1 randomInt2
    rw [if_pos h]

/-- Witness for `random_contract`: at `s = 7`, `min = 5 > max = 2` the call
fails with `InvalidArgument` and keeps the state, and `min = 1 ≤ max = 6`
succeeds with a value in range. -/
theorem random_contract_witness :
    randomInt2 7 5 2 = (Except.error LoveErr.invalidArgument, 7) ∧
      ∃ v, randomInt2 7 1 6 = (Except.ok v, rngStep 7) ∧ 1 ≤ v ∧ v ≤ 6 :=
  ⟨(random_contract 7 5 2).2.1 (by decide),
   (random_contract 7 1 6).2.2.1 (by decide)⟩

/-- Claim C6: `colorToBytes` multiplies each of its 3 or 4 channel
arguments by 255 and rounds to the nearest integer, which lies in
`[0,255]` for channels in `[0,1]`; the arity of the input is preserved;
`colorToBytes (1,1,1) = (255,255,255)` and
`colorToBytes (0,0,0,0.5) = (0,0,0,128)`. -/
theorem colorToBytes_spec (rgba : List ℚ) (h : ∀ c ∈ rgba, 0 ≤ c ∧ c ≤ 1) :
    (colorToBytes rgba).length = rgba.length ∧
    colorToBytes rgba = rgba.map (fun c => round (255 * c)) ∧
    (∀ b ∈ colorToBytes rgba, 0 ≤ b ∧ b ≤ 255) ∧
    colorToBytes [1, 1, 1] = [255, 255, 255] ∧
    colorToBytes [0, 0, 0, 1/2] = [0, 0, 0, 128] := by
  refine ⟨List.length_map _ _, rfl, ?_, ?_, ?_⟩
  · intro b hb
    rcases List.mem_map.mp hb with ⟨c, hc, hbc⟩
    rcases h c hc with ⟨h0, h1⟩
    subst hbc
    unfold toByte
    rw [round_eq]
    constructor
    · exact Int.le_floor.mpr (by push_cast; linarith)
    · have : ⌊(255 * c + 1 / 2 : ℚ)⌋ < 256 :=
        Int.floor_lt.mpr (by push_cast; linarith)
      omega
  · simp [colorToBytes, toByte]
  · norm_num [colorToBytes, toByte, round_eq]

/-- Witness for `colorToBytes_spec`: the channel list `[1, 1/2]` is within
`[0,1]` and its bytes are `[255, 128]`, both in range. -/
theorem colorToBytes_spec_witness :
    colorToBytes [1, 1/2] = [(1 : ℚ), 1/2].map (fun c => round (255 * c)) ∧
      ∀ b ∈ colorToBytes [1, 1/2], 0 ≤ b ∧ b ≤ 255 :=
  ⟨(colorToBytes_spec [1, 1/2] (by norm_num)).2.1,
   (colorToBytes_spec [1, 1/2] (by norm_num)).2.2.1⟩

/-- Claim C10: `love.keyboard.isDown` returns true iff at least one of the
supplied keys is currently pressed; with zero keys it returns false. -/
theorem isDown_spec (pressed : String → Bool) (keys : List String) :
    (isDown pressed keys = true ↔ ∃ k ∈ keys, pressed k = true) ∧
      isDown pressed [] = false := by
  constructor
  · unfold isDown
    exact List.any_eq_true
  · rfl

/-- The mixing hash stays inside the 32-bit range. -/
theorem mix_lt (k : ℕ) : mix k < M32 := by
  unfold mix
  have h32 : (0 : ℕ) < M32 := by unfold M32; positivity
  have h1 : (k * 2654435761 + 2463534242) % M32 < M32 := Nat.mod_lt _ h32
  have h2 : ((k * 2654435761 + 2463534242) % M32) >>> 16 < M32 := by
    rw [Nat.shiftRight_eq_div_pow]
    exact lt_of_le_of_lt (Nat.div_le_self _ _) h1
  exact Nat.xor_lt_two_pow h1 h2

/-- Every lattice value lies in `[0,1]`. -/
theorem grid_mem (n : ℤ) : 0 ≤ grid n ∧ grid n ≤ 1 := by
  unfold grid
  have hM : (0 : ℚ) < (M32 : ℚ) := by
    have : (0 : ℕ) < M32 := by unfold M32; positivity
    exact_mod_cast this
  have h : (latticeHash n : ℚ) < (M32 : ℚ) := by
    exact_mod_cast mix_lt (n % (M32 : ℤ)).toNat
  exact ⟨div_nonneg (by positivity) hM.le, le_of_lt ((div_lt_one hM).mpr h)⟩

/-- Linear interpolation with all inputs in `[0,1]` stays in `[0,1]`. -/
theorem lerp_mem01 {t a b : ℚ} (ht : 0 ≤ t ∧ t ≤ 1) (ha : 0 ≤ a ∧ a ≤ 1)
    (hb : 0 ≤ b ∧ b ≤ 1) : 0 ≤ lerp t a b ∧ lerp t a b ≤ 1 := by
  obtain ⟨ht0, ht1⟩ := ht
  obtain ⟨ha0, ha1⟩ := ha
  obtain ⟨hb0, hb1⟩ := hb
  unfold lerp
  constructor <;> nlinarith

/-- The fractional part lies in `[0,1]`. -/
theorem fract_mem01 (x : ℚ) : 0 ≤ Int.fract x ∧ Int.fract x ≤ 1 :=
  ⟨Int.fract_nonneg x, (Int.fract_lt_one x).le⟩

/-- Claim C7: `noise` at every arity from 1 to 4 returns a value in
`[0,1]`, and is a deterministic pure function: equal inputs give equal
outputs.  (Determinism is intrinsic to the pure model: the definitions
depend on nothing but their arguments.) -/
theorem noise_spec (x y z w : ℚ) :
    (0 ≤ noise1 x ∧ noise1 x ≤ 1) ∧
    (0 ≤ noise2 x y ∧ noise2 x y ≤ 1) ∧
    (0 ≤ noise3 x y z ∧ noise3 x y z ≤ 1) ∧
    (0 ≤ noise4 x y z w ∧ noise4 x y z w ≤ 1) ∧
    (∀ x' y' z' w', x = x' → y = y' → z = z' → w = w' →
      noise1 x = noise1 x' ∧ noise2 x y = noise2 x' y' ∧
        noise3 x y z = noise3 x' y' z' ∧ noise4 x y z w = noise4 x' y' z' w') := by
  have slice : ∀ (a b c : ℚ) (l : ℤ),
      0 ≤ noise4Slice a b c l ∧ noise4Slice a b c l ≤ 1 := by
    intro a b c l
    unfold noise4Slice
    exact lerp_mem01 (fract_mem01 _)
      (lerp_mem01 (fract_mem01 _)
        (lerp_mem01 (fract_mem01 _) (grid_mem _) (grid_mem _))
        (lerp_mem01 (fract_mem01 _) (grid_mem _) (grid_mem _)))
      (lerp_mem01 (fract_mem01 _)
        (lerp_mem01 (fract_mem01 _) (grid_mem _) (grid_mem _))
        (lerp_mem01 (fract_mem01 _) (grid_mem _) (grid_mem _)))
  refine ⟨?_, ?_, ?_, ?_, ?_⟩
  · unfold noise1
    exact lerp_mem01 (fract_mem01 _) (grid_mem _) (grid_mem _)
  · unfold noise2
    exact lerp_mem01 (fract_mem01 _)
      (lerp_mem01 (fract_mem01 _) (grid_mem _) (grid_mem _))
      (lerp_mem01 (fract_mem01 _) (grid_mem _) (grid_mem _))
  · unfold noise3
    exact lerp_mem01 (fract_mem01 _)
      (lerp_mem01 (fract_mem01 _)
        (lerp_mem01 (fract_mem01 _) (grid_mem _) (grid_mem _))
        (lerp_mem01 (fract_mem01 _) (grid_mem _) (grid_mem _)))
      (lerp_mem01 (fract_mem01 _)
        (lerp_mem01 (fract_mem01 _) (grid_mem _) (grid_mem _))
        (lerp_mem01 (fract_mem01 _) (grid_mem _) (grid_mem _)))
  · unfold noise4
    exact lerp_mem01 (fract_mem01 _) (slice x y z _) (slice x y z _)
  · intro x' y' z' w' hx hy hz hw
    subst hx; subst hy; subst hz; subst hw
    exact ⟨rfl, rfl, rfl, rfl⟩

/-- Witness for `noise_spec`: range at a concrete input and determinism
with its equality hypotheses discharged at concrete inputs. -/
theorem noise_spec_witness :
    (0 ≤ noise1 (1/3) ∧ noise1 (1/3) ≤ 1) ∧
      noise4 0 0 0 0 = noise4 0 0 0 0 :=
  ⟨(noise_spec (1/3) 0 0 0).1,
   ((noise_spec 0 0 0 0).2.2.2.2 0 0 0 0 rfl rfl rfl rfl).2.2.2⟩

/-- Claim C8: `isConvex` returns true exactly when the cross products
across all consecutive edge triples are sign-consistent (collinear triples,
which yield cross product `0`, are compatible with either sign) and the
sequence has at least 3 vertices; it is false on fewer than 3 vertices;
it is true on the square `[0,0,1,0,1,1,0,1]` and false on the
self-intersecting star-like sequence `[0,0,4,0,0,4,4,4,2,6]`. -/
theorem isConvex_spec (coords : List ℚ) :
    (isConvex coords = true ↔
      3 ≤ (toPoints coords).length ∧
        ((∀ c ∈ crossList (toPoints coords), 0 ≤ c) ∨
          (∀ c ∈ crossList (toPoints coords), c ≤ 0))) ∧
    (∀ l : List Pt, l.length < 3 → isConvexPts l = false) ∧
    isConvex [0, 0, 1, 0, 1, 1, 0, 1] = true ∧
    isConvex [0, 0, 4, 0, 0, 4, 4, 4, 2, 6] = false := by
  refine ⟨?_, ?_, ?_, ?_⟩
  · simp [isConvex, isConvexPts, List.all_eq_true, decide_eq_true_iff]
  · intro l hl
    unfold isConvexPts
    simp only [Bool.and_eq_false_iff, decide_eq_false_iff_not, not_le]
    exact Or.inl hl
  · norm_num [isConvex, isConvexPts, toPoints, crossList, cyclicTriples,
      crossP, List.rotate]
  · norm_num [isConvex, isConvexPts, toPoints, crossList, cyclicTriples,
      crossP, List.rotate]

/-- Witness for `isConvex_spec`: a one-point sequence is not convex. -/
theorem isConvex_spec_witness : isConvexPts [((0 : ℚ), (0 : ℚ))] = false :=
  (isConvex_spec []).2.1 [(0, 0)] (by decide)

/-- Claim C9 counterexample: the declaration file accepts a 2-argument
call `newTransform(x, y)` (only `x` and `y` are required; the remaining
seven parameters are optional), so the accepted argument counts are not
just 0 and 9. -/
theorem newTransform_arity_counterexample :
    newTransformArityOK 2 = true ∧ ¬((2 : ℕ) = 0 ∨ (2 : ℕ) = 9) := by
  decide

/-- Claim C9 (amended): `newTransform` accepts zero arguments, or `x, y`
followed by up to seven further numbers (any count from 2 to 9); the
zero-argument form yields the identity defaults: angle 0, scale `(1,1)`,
origin `(0,0)`, shear `(0,0)`. -/
theorem newTransform_arity_amended (n : ℕ) :
    (newTransformArityOK n = true ↔ n = 0 ∨ (2 ≤ n ∧ n ≤ 9)) ∧
      defaultTransform.angle = 0 ∧ defaultTransform.sx = 1 ∧
      defaultTransform.sy = 1 ∧ defaultTransform.ox = 0 ∧
      defaultTransform.oy = 0 ∧ defaultTransform.kx = 0 ∧
      defaultTransform.ky = 0 := by
  refine ⟨?_, rfl, rfl, rfl, rfl, rfl, rfl, rfl⟩
  simp [newTransformArityOK]

/-- Unfolding the cyclic edge list along a nonempty vertex list. -/
theorem cycAux_eq (first x : Pt) (l : List Pt) :
    cycAux first (x :: l) = pathPairs (x :: l) ++ [(l.getLastD x, first)] := by
  induction l generalizing x with
  | nil => simp [cycAux, pathPairs]
  | cons y tl ih =>
      show (x, y) :: cycAux first (y :: tl) = _
      rw [ih y, List.getLastD_cons]
      rfl

/-- The boundary of `x :: l` is the path along it plus the closing edge. -/
theorem cyc_eq (x : Pt) (l : List Pt) :
    cyc (x :: l) = pathPairs (x :: l) ++ [(l.getLastD x, x)] :=
  cycAux_eq x x l

/-- Appending one vertex extends the path pairs by one edge. -/
theorem pathPairs_concat (x : Pt) (l : List Pt) (y : Pt) :
    pathPairs ((x :: l) ++ [y]) = pathPairs (x :: l) ++ [(l.getLastD x, y)] := by
  induction l generalizing x with
  | nil => simp [pathPairs]
  | cons z tl ih =>
      show (x, z) :: pathPairs ((z :: tl) ++ [y]) = _
      rw [ih z, List.getLastD_cons]
      rfl

/-- The cyclic edge sum is invariant under rotation. -/
theorem cycSum_rotate {M : Type} [AddCommMonoid M] (f : Pt × Pt → M)
    (P : List Pt) : cycSum f (P.rotate 1) = cycSum f P := by
  match P with
  | [] => rfl
  | [x] => rw [List.rotate_singleton]
  | x :: y :: l =>
      rw [List.rotate_cons_succ, List.rotate_zero]
      unfold cycSum
      rw [show (y :: l) ++ [x] = y :: (l ++ [x]) from rfl, cyc_eq, cyc_eq,
        show y :: (l ++ [x]) = (y :: l) ++ [x] from rfl, pathPairs_concat,
        List.getLastD_concat, List.getLastD_cons]
      simp only [pathPairs, List.map_append, List.sum_append, List.map_cons,
        List.sum_cons, List.map_nil, List.sum_nil]
      abel

/-- Clipping the ear `(a, b, c)` splits the cyclic edge sum into the
triangle's boundary plus the boundary of the reduced polygon, for any
antisymmetric edge weight. -/
theorem cycSum_clip {M : Type} [AddCommMonoid M] (f : Pt × Pt → M)
    (hf : ∀ a b : Pt, f (a, b) + f (b, a) = 0) (a b c : Pt)
    (rest : List Pt) :
    cycSum f (a :: b :: c :: rest) =
      cycSum f [a, b, c] + cycSum f (a :: c :: rest) := by
  have c1 : cyc (a :: b :: c :: rest) =
      (a, b) :: (b, c) :: cycAux a (c :: rest) := rfl
  have c2 : cyc (a :: c :: rest) = (a, c) :: cycAux a (c :: rest) := rfl
  have c3 : cyc [a, b, c] = [(a, b), (b, c), (c, a)] := rfl
  unfold cycSum
  rw [c1, c2, c3]
  simp only [List.map_cons, List.sum_cons, List.map_nil, List.sum_nil]
  have h0 : f (c, a) + f (a, c) = 0 := hf c a
  have hr : f (a, b) + (f (b, c) + (f (c, a) + 0)) +
        (f (a, c) + ((cycAux a (c :: rest)).map f).sum) =
      f (a, b) + (f (b, c) + ((cycAux a (c :: rest)).map f).sum) +
        (f (c, a) + f (a, c)) := by
    abel
  rw [hr, h0, add_zero]

/-- A successful ear search splits the cyclic edge sum at the found ear. -/
theorem findEar_chain {M : Type} [AddCommMonoid M] (f : Pt × Pt → M)
    (hf : ∀ a b : Pt, f (a, b) + f (b, a) = 0) :
    ∀ (fuel : ℕ) (P : List Pt) (t : Tri) (Q : List Pt),
      findEar fuel P = some (t, Q) →
      cycSum f P = triCycSum f t + cycSum f Q := by
  intro fuel
  induction fuel with
  | zero => intro P t Q h; simp [findEar] at h
  | succ n ih =>
      intro P t Q h
      match P with
      | [] => simp [findEar] at h
      | [_] => simp [findEar] at h
      | [_, _] => simp [findEar] at h
      | a :: b :: c :: rest =>
          rw [findEar] at h
          by_cases he : earAt (a :: b :: c :: rest) = true
          · rw [if_pos he] at h
            obtain ⟨ht, hQ⟩ := Prod.mk.injEq .. ▸ Option.some.injEq .. ▸ h
            subst ht; subst hQ
            exact cycSum_clip f hf a b c rest
          · rw [if_neg he] at h
            rw [← cycSum_rotate f (a :: b :: c :: rest)]
            exact ih _ t Q h

/-- The triangle found by the ear search is positively oriented. -/
theorem findEar_pos :
    ∀ (fuel : ℕ) (P : List Pt) (t : Tri) (Q : List Pt),
      findEar fuel P = some (t, Q) → 0 < crossP t.1 t.2.1 t.2.2 := by
  intro fuel
  induction fuel with
  | zero => intro P t Q h; simp [findEar] at h
  | succ n ih =>
      intro P t Q h
      match P with
      | [] => simp [findEar] at h
      | [_] => simp [findEar] at h
      | [_, _] => simp [findEar] at h
      | a :: b :: c :: rest =>
          rw [findEar] at h
          by_cases he : earAt (a :: b :: c :: rest) = true
          · rw [if_pos he] at h
            obtain ⟨ht, hQ⟩ := Prod.mk.injEq .. ▸ Option.some.injEq .. ▸ h
            subst ht
            have := he
            unfold earAt at this
            rw [Bool.and_eq_true] at this
            exact of_decide_eq_true this.1
          · rw [if_neg he] at h
            exact ih _ t Q h

/-- Ear clipping preserves the cyclic edge sum: the boundaries of the
emitted triangles add up to the boundary of the input polygon. -/
theorem clipRun_chain {M : Type} [AddCommMonoid M] (f : Pt × Pt → M)
    (hf : ∀ a b : Pt, f (a, b) + f (b, a) = 0) :
    ∀ (fuel : ℕ) (P : List Pt) (T : List Tri),
      clipRun fuel P = Except.ok T →
      (T.map (triCycSum f)).sum = cycSum f P := by
  intro fuel
  induction fuel with
  | zero => intro P T h; simp [clipRun] at h
  | succ n ih =>
      intro P T h
      match P with
      | [] => simp [clipRun] at h
      | [_] => simp [clipRun] at h
      | [_, _] => simp [clipRun] at h
      | [a, b, c] =>
          rw [clipRun] at h
          by_cases hc : 0 < crossP a b c
          · rw [if_pos hc] at h
            obtain hT := Except.ok.injEq .. ▸ h
            subst hT
            simp [triCycSum, triPts]
          · rw [if_neg hc] at h
            exact absurd h (by simp)
      | a :: b :: c :: d :: tl =>
          rw [clipRun] at h
          cases hfe : findEar (a :: b :: c :: d :: tl).length
              (a :: b :: c :: d :: tl) with
          | none => rw [hfe] at h; exact absurd h (by simp)
          | some pr =>
              obtain ⟨t, Q⟩ := pr
              rw [hfe] at h
              replace h : Except.map (fun ts => t :: ts) (clipRun n Q) =
                  Except.ok T := h
              cases hrec : clipRun n Q with
              | error e => rw [hrec] at h; exact absurd h (by simp [Except.map])
              | ok T' =>
                  rw [hrec] at h
                  simp only [Except.map, Except.ok.injEq] at h
                  subst h
                  rw [List.map_cons, List.sum_cons, ih Q T' hrec,
                    findEar_chain f hf _ _ _ _ hfe]

/-- Every triangle emitted by ear clipping is positively oriented. -/
theorem clipRun_pos :
    ∀ (fuel : ℕ) (P : List Pt) (T : List Tri),
      clipRun fuel P = Except.ok T →
      ∀ t ∈ T, 0 < crossP t.1 t.2.1 t.2.2 := by
  intro fuel
  induction fuel with
  | zero => intro P T h; simp [clipRun] at h
  | succ n ih =>
      intro P T h
      match P with
      | [] => simp [clipRun] at h
      | [_] => simp [clipRun] at h
      | [_, _] => simp [clipRun] at h
      | [a, b, c] =>
          rw [clipRun] at h
          by_cases hc : 0 < crossP a b c
          · rw [if_pos hc] at h
            obtain hT := Except.ok.injEq .. ▸ h
            subst hT
            intro t ht
            rw [List.mem_singleton] at ht
            subst ht
            exact hc
          · rw [if_neg hc] at h
            exact absurd h (by simp)
      | a :: b :: c :: d :: tl =>
          rw [clipRun] at h
          cases hfe : findEar (a :: b :: c :: d :: tl).length
              (a :: b :: c :: d :: tl) with
          | none => rw [hfe] at h; exact absurd h (by simp)
          | some pr =>
              obtain ⟨t, Q⟩ := pr
              rw [hfe] at h
              replace h : Except.map (fun ts => t :: ts) (clipRun n Q) =
                  Except.ok T := h
              cases hrec : clipRun n Q with
              | error e => rw [hrec] at h; exact absurd h (by simp [Except.map])
              | ok T' =>
                  rw [hrec] at h
                  simp only [Except.map, Except.ok.injEq] at h
                  subst h
                  intro u hu
                  rcases List.mem_cons.mp hu with hu | hu
                  · subst hu; exact findEar_pos _ _ _ _ hfe
                  · exact ih Q T' hrec u hu

/-- The elementary boundary chain is antisymmetric under edge reversal. -/
theorem chainF_antisym (a b : Pt) : chainF (a, b) + chainF (b, a) = 0 := by
  funext e
  simp only [chainF, eChain, Pi.add_apply, Pi.zero_apply]
  ring

/-- The shoelace edge weight is antisymmetric under edge reversal. -/
theorem edgeDet_antisym (a b : Pt) : edgeDet (a, b) + edgeDet (b, a) = 0 := by
  simp only [edgeDet]
  ring

/-- Reversing a path negates the shoelace sum along it (without the
closing edge). -/
theorem pathSum_reverse (l : List Pt) :
    ((pathPairs l.reverse).map edgeDet).sum =
      -((pathPairs l).map edgeDet).sum := by
  induction l with
  | nil => simp [pathPairs]
  | cons x xs ih =>
      cases xs with
      | nil => simp [pathPairs]
      | cons y tl =>
          rw [List.reverse_cons]
          obtain ⟨h, m, hm⟩ : ∃ h m, (y :: tl).reverse = h :: m := by
            cases hr : (y :: tl).reverse with
            | nil => exact absurd hr (by simp)
            | cons h m => exact ⟨h, m, rfl⟩
          have hlast : m.getLastD h = y := by
            have h1 : (h :: m).getLastD (0, 0) = m.getLastD h :=
              List.getLastD_cons ..
            have h2 : (h :: m).getLastD ((0 : ℚ), (0 : ℚ)) = y := by
              rw [← hm, List.getLastD_eq_getLast? .., List.getLast?_reverse]
              rfl
            rw [← h1, h2]
          rw [hm, pathPairs_concat, hlast, List.map_append, List.sum_append,
            ← hm, ih]
          rw [show pathPairs (x :: y :: tl) =
            (x, y) :: pathPairs (y :: tl) from rfl]
          rw [List.map_cons, List.sum_cons]
          simp only [List.map_cons, List.sum_cons, List.map_nil,
            List.sum_nil]
          have ha := edgeDet_antisym x y
          linarith

/-- Reversing a polygon negates its doubled signed area. -/
theorem area2_reverse (P : List Pt) : area2 P.reverse = -area2 P := by
  match P with
  | [] => simp [area2, cycSum, cyc]
  | [x] => simp [area2, cycSum, cyc, cycAux, edgeDet]
  | x :: y :: tl =>
      obtain ⟨h, m, hm⟩ : ∃ h m, (x :: y :: tl).reverse = h :: m := by
        cases hr : (x :: y :: tl).reverse with
        | nil => exact absurd hr (by simp)
        | cons h m => exact ⟨h, m, rfl⟩
      have hgl : m.getLastD h = x := by
        have h1 : (h :: m).getLastD (0, 0) = m.getLastD h :=
          List.getLastD_cons ..
        have h2 : (h :: m).getLastD ((0 : ℚ), (0 : ℚ)) = x := by
          rw [← hm, List.getLastD_eq_getLast? .., List.getLast?_reverse]
          rfl
        rw [← h1, h2]
      have hhd : h = tl.getLastD y := by
        have h1 : (h :: m).headD ((0 : ℚ), (0 : ℚ)) = h := rfl
        have h2 : (h :: m).headD ((0 : ℚ), (0 : ℚ)) = tl.getLastD y := by
          rw [← hm, List.headD_eq_head? .., List.head?_reverse]
          simp [List.getLast?_cons, List.getLastD_cons]
        exact h1.symm.trans h2
      rw [show area2 (x :: y :: tl).reverse =
            ((cyc ((x :: y :: tl).reverse)).map edgeDet).sum from rfl,
        hm, cyc_eq, hgl]
      rw [show area2 (x :: y :: tl) =
            ((cyc (x :: y :: tl)).map edgeDet).sum from rfl,
        cyc_eq, List.getLastD_cons]
      rw [List.map_append, List.sum_append, List.map_append, List.sum_append,
        ← hm, pathSum_reverse]
      simp only [List.map_cons, List.sum_cons, List.map_nil, List.sum_nil]
      rw [← hhd]
      have ha := edgeDet_antisym h x
      linarith

/-- Halving distributes over a mapped sum. -/
theorem sum_map_half (T : List Tri) (g : Tri → ℚ) :
    (T.map fun t => g t / 2).sum = (T.map g).sum / 2 := by
  induction T with
  | nil => simp
  | cons t tl ih =>
      simp only [List.map_cons, List.sum_cons, ih]
      ring

/-- Normalizing the orientation makes the doubled signed area equal to its
absolute value. -/
theorem area2_orient (P : List Pt) : area2 (orient P) = |area2 P| := by
  unfold orient
  by_cases hneg : area2 P < 0
  · rw [if_pos hneg, area2_reverse, abs_of_neg hneg]
  · rw [if_neg hneg, abs_of_nonneg (not_lt.mp hneg)]

/-- Claim C4: on success, `triangulate` returns triangles that tile the
input polygon — their directed boundary edges sum, with interior diagonals
cancelling in pairs, to exactly the boundary of the orientation-normalized
input (the boundary-chain identity, the chain-level statement of
"non-overlapping triangles whose union exactly covers the polygon"), their
signed areas are positive and sum to the polygon's absolute area; it fails
with `InvalidArgument` on fewer than 3 vertices and on self-intersecting
input; and on the square `[0,0,2,0,2,2,0,2]` it returns exactly 2
triangles whose combined area equals 4. -/
theorem triangulate_spec :
    (∀ coords T, triangulate coords = Except.ok T →
      (T.map (triCycSum chainF)).sum = bChain (orient (toPoints coords)) ∧
      (T.map triArea).sum = |polyArea (toPoints coords)| ∧
      ∀ t ∈ T, 0 < crossP t.1 t.2.1 t.2.2) ∧
    (∀ coords, (toPoints coords).length < 3 →
      triangulate coords = Except.error LoveErr.invalidArgument) ∧
    (∀ coords, 3 ≤ (toPoints coords).length →
      selfIntersects (toPoints coords) = true →
      triangulate coords = Except.error LoveErr.invalidArgument) ∧
    (∃ t₁ t₂, triangulate [0, 0, 2, 0, 2, 2, 0, 2] = Except.ok [t₁, t₂] ∧
      triArea t₁ + triArea t₂ = 4) := by
  refine ⟨?_, ?_, ?_, ?_⟩
  · intro coords T h
    unfold triangulate at h
    by_cases h3 : (toPoints coords).length < 3
    · rw [if_pos h3] at h
      exact absurd h (by simp)
    · rw [if_neg h3] at h
      by_cases hsi : selfIntersects (toPoints coords) = true
      · rw [if_pos hsi] at h
        exact absurd h (by simp)
      · rw [if_neg hsi] at h
        refine ⟨clipRun_chain chainF chainF_antisym _ _ _ h, ?_,
          clipRun_pos _ _ _ h⟩
        have harea := clipRun_chain edgeDet edgeDet_antisym _ _ _ h
        have hmap : (T.map triArea).sum =
            (T.map (triCycSum edgeDet)).sum / 2 := by
          rw [← sum_map_half]
          rfl
        rw [hmap, harea]
        have : cycSum edgeDet (orient (toPoints coords)) =
            |area2 (toPoints coords)| := area2_orient (toPoints coords)
        rw [this]
        unfold polyArea
        rw [abs_div]
        norm_num
  · intro coords h3
    unfold triangulate
    rw [if_pos h3]
  · intro coords h3 hsi
    unfold triangulate
    rw [if_neg (not_lt.mpr h3), if_pos hsi]
  · refine ⟨((0, 0), (2, 0), (2, 2)), ((0, 0), (2, 2), (0, 2)), ?_, ?_⟩
    · norm_num [triangulate, toPoints, selfIntersects, cyc, cycAux,
        segsIntersect, onSeg, crossP, orient, area2, cycSum, edgeDet,
        clipRun, findEar, earAt, ptInTri, List.rotate, List.range_succ,
        Except.map]
    · norm_num [triArea, triPts, cycSum, cyc, cycAux, edgeDet]

/-- Witness for `triangulate_spec`: a 1-vertex input fails with
`InvalidArgument`. -/
theorem triangulate_spec_witness :
    triangulate [0, 0] = Except.error LoveErr.invalidArgument :=
  triangulate_spec.2.1 [0, 0] (by norm_num [toPoints])

/-- Raising `a ^ (5/12)` to the 12th power yields `a ^ 5`. -/
theorem rpow_five_twelfths_pow (a : ℝ) (ha : 0 ≤ a) :
    (a ^ ((5 : ℝ) / 12)) ^ (12 : ℕ) = a ^ (5 : ℕ) := by
  rw [← Real.rpow_natCast (a ^ ((5 : ℝ) / 12)) 12, ← Real.rpow_mul ha,
    show ((5 : ℝ) / 12) * ((12 : ℕ) : ℝ) = ((5 : ℕ) : ℝ) by push_cast; norm_num,
    Real.rpow_natCast]

/-- Raising `a ^ (12/5)` to the 5th power yields `a ^ 12`. -/
theorem rpow_twelve_fifths_pow (a : ℝ) (ha : 0 ≤ a) :
    (a ^ ((12 : ℝ) / 5)) ^ (5 : ℕ) = a ^ (12 : ℕ) := by
  rw [← Real.rpow_natCast (a ^ ((12 : ℝ) / 5)) 5, ← Real.rpow_mul ha,
    show ((12 : ℝ) / 5) * ((5 : ℕ) : ℝ) = ((12 : ℕ) : ℝ) by push_cast; norm_num,
    Real.rpow_natCast]

/-- A rational lower bound for a 5/12-power, from a 12th/5th power
comparison. -/
theorem le_rpow_512 {q k : ℝ} (hq : 0 ≤ q) (hk : 0 ≤ k)
    (h : q ^ (12 : ℕ) ≤ k ^ (5 : ℕ)) : q ≤ k ^ ((5 : ℝ) / 12) := by
  have h12 : q ^ (12 : ℕ) ≤ (k ^ ((5 : ℝ) / 12)) ^ (12 : ℕ) := by
    rw [rpow_five_twelfths_pow k hk]
    exact h
  exact le_of_pow_le_pow_left₀ (by norm_num) (Real.rpow_nonneg hk _) h12

/-- A rational upper bound for a 5/12-power, from a 5th/12th power
comparison. -/
theorem rpow_512_le {u q : ℝ} (hu : 0 ≤ u) (hq : 0 ≤ q)
    (h : u ^ (5 : ℕ) ≤ q ^ (12 : ℕ)) : u ^ ((5 : ℝ) / 12) ≤ q := by
  have h12 : (u ^ ((5 : ℝ) / 12)) ^ (12 : ℕ) ≤ q ^ (12 : ℕ) := by
    rw [rpow_five_twelfths_pow u hu]
    exact h
  exact le_of_pow_le_pow_left₀ (by norm_num) hq h12

/-- A strict rational lower bound for a 12/5-power, from a 5th/12th power
comparison. -/
theorem lt_rpow_125 {b a : ℝ} (hb : 0 ≤ b) (ha : 0 ≤ a)
    (h : b ^ (5 : ℕ) < a ^ (12 : ℕ)) : b < a ^ ((12 : ℝ) / 5) := by
  have h5 : b ^ (5 : ℕ) < (a ^ ((12 : ℝ) / 5)) ^ (5 : ℕ) := by
    rw [rpow_twelve_fifths_pow a ha]
    exact h
  exact lt_of_pow_lt_pow_left₀ 5 (Real.rpow_nonneg ha _) h5

/-- The scalar round-trip bound behind claim C5. -/
theorem srgb_roundtrip_scalar (x : ℝ) (hx0 : 0 ≤ x) (hx1 : x ≤ 1) :
    |linearToGamma (gammaToLinear x) - x| ≤ 1 / 1000000 := by
  unfold gammaToLinear linearToGamma
  by_cases hA : x ≤ 0.04045
  · rw [if_pos hA]
    by_cases hK : x / 12.92 ≤ 0.0031308
    · rw [if_pos hK]
      have hc : 12.92 * (x / 12.92) - x = 0 := by
        field_simp
      rw [hc, abs_zero]
      norm_num
    · rw [if_neg hK]
      have hl_lo : (0.0031308 : ℝ) < x / 12.92 := not_le.mp hK
      have hx_lo : (0.040449936 : ℝ) < x := by
        have h12 : (0 : ℝ) < 12.92 := by norm_num
        rw [lt_div_iff h12] at hl_lo
        linarith
      have hl_hi : x / 12.92 ≤ (0.04045 : ℝ) / 12.92 := by
        gcongr
      have hexp : ((1 : ℝ) / 2.4) = (5 : ℝ) / 12 := by norm_num
      rw [hexp]
      have hq1 : (9047384 / 100000000 : ℝ) ≤
          (0.0031308 : ℝ) ^ ((5 : ℝ) / 12) :=
        le_rpow_512 (by norm_num) (by norm_num) (by norm_num)
      have hmono_lo : (0.0031308 : ℝ) ^ ((5 : ℝ) / 12) ≤
          (x / 12.92) ^ ((5 : ℝ) / 12) :=
        Real.rpow_le_rpow (by norm_num) hl_lo.le (by norm_num)
      have hq2 : ((0.04045 : ℝ) / 12.92) ^ ((5 : ℝ) / 12) ≤
          (9047400 / 100000000 : ℝ) :=
        rpow_512_le (by norm_num) (by norm_num) (by norm_num)
      have hmono_hi : (x / 12.92) ^ ((5 : ℝ) / 12) ≤
          ((0.04045 : ℝ) / 12.92) ^ ((5 : ℝ) / 12) :=
        Real.rpow_le_rpow (by positivity) hl_hi (by norm_num)
      rw [abs_sub_le_iff]
      constructor <;> nlinarith [hq1, hq2, hmono_lo, hmono_hi, hx_lo, hA]
  · rw [if_neg hA]
    have hxT : (0.04045 : ℝ) < x := not_le.mp hA
    have hy0 : (0 : ℝ) ≤ (x + 0.055) / 1.055 := by
      have : (0 : ℝ) < x + 0.055 := by linarith
      positivity
    have hy_lo : (1909 / 21100 : ℝ) < (x + 0.055) / 1.055 := by
      rw [lt_div_iff (show (0 : ℝ) < 1.055 by norm_num)]
      nlinarith [hxT]
    have hexp2 : (2.4 : ℝ) = (12 : ℝ) / 5 := by norm_num
    rw [hexp2]
    have hb : (0.0031308 : ℝ) < (1909 / 21100 : ℝ) ^ ((12 : ℝ) / 5) :=
      lt_rpow_125 (by norm_num) (by norm_num) (by norm_num)
    have hmono : (1909 / 21100 : ℝ) ^ ((12 : ℝ) / 5) ≤
        ((x + 0.055) / 1.055) ^ ((12 : ℝ) / 5) :=
      Real.rpow_le_rpow (by norm_num) hy_lo.le (by norm_num)
    rw [if_neg (not_le.mpr (lt_of_lt_of_le hb hmono))]
    have hinv : (((x + 0.055) / 1.055) ^ ((12 : ℝ) / 5)) ^
          ((1 : ℝ) / ((12 : ℝ) / 5)) = (x + 0.055) / 1.055 := by
      rw [← Real.rpow_mul hy0,
        show ((12 : ℝ) / 5) * ((1 : ℝ) / ((12 : ℝ) / 5)) = 1 by norm_num,
        Real.rpow_one]
    rw [hinv]
    have hc : 1.055 * ((x + 0.055) / 1.055) - 0.055 - x = 0 := by
      field_simp
    rw [hc, abs_zero]
    norm_num

/-- Claim C5: for every channel `c` in `[0,1]`, composing `gammaToLinear`
and `linearToGamma` (the standard sRGB piecewise transfer functions)
returns `c` within `1e-6`, both as a single scalar and componentwise on
the 3-channel form. -/
theorem srgb_roundtrip (c : ℝ) (h0 : 0 ≤ c) (h1 : c ≤ 1) :
    |linearToGamma (gammaToLinear c) - c| ≤ 1 / 1000000 ∧
    (∀ c₂ c₃ : ℝ, 0 ≤ c₂ → c₂ ≤ 1 → 0 ≤ c₃ → c₃ ≤ 1 →
      |(linearToGamma3 (gammaToLinear3 (c, c₂, c₃))).1 - c| ≤ 1 / 1000000 ∧
      |(linearToGamma3 (gammaToLinear3 (c, c₂, c₃))).2.1 - c₂| ≤
        1 / 1000000 ∧
      |(linearToGamma3 (gammaToLinear3 (c, c₂, c₃))).2.2 - c₃| ≤
        1 / 1000000) := by
  refine ⟨srgb_roundtrip_scalar c h0 h1, ?_⟩
  intro c₂ c₃ h20 h21 h30 h31
  exact ⟨srgb_roundtrip_scalar c h0 h1, srgb_roundtrip_scalar c₂ h20 h21,
    srgb_roundtrip_scalar c₃ h30 h31⟩

/-- Witness for `srgb_roundtrip`: the bound at the concrete channel value
`1/2`, with the range hypotheses discharged. -/
theorem srgb_roundtrip_witness :
    |linearToGamma (gammaToLinear (1/2)) - 1/2| ≤ 1 / 1000000 :=
  (srgb_roundtrip (1/2) (by norm_num) (by norm_num)).1

end LoveSpec
